import Mathlib

/-!
# Verification of the TSP genetic-algorithm engine

A shallow embedding of the optimization engine implemented in
`src/TSPGeneticAlgorithm.tsx` (a React component).  Only the engine core is
embedded: geometry, fitness, population initialization, roulette-wheel
selection, order crossover, swap mutation, the per-generation iteration, and
reset.  Rendering, timers and JSX are UI plumbing and are out of scope.

Modelling conventions:
* JS numbers are modelled as exact rationals `ℚ`.
* `Math.hypot` (a floating-point library primitive) is modelled as an
  abstract function `hypot : ℚ → ℚ → ℚ` threaded as a parameter; the
  properties the theorems need from it (non-negativity, invariance under
  negating both arguments) are stated as hypotheses, and hold for the real
  `hypot` as well as for IEEE `Math.hypot`.
* Each `Math.random()` call site receives its drawn value in `[0,1)` as an
  explicit parameter; the per-child draws of the generation loop come from a
  stream `ℕ → ChildRnd`.
* The random-comparator shuffle `[...cities].sort(() => Math.random() - 0.5)`
  is a comparison sort driven by random comparator outcomes; ECMAScript
  guarantees the result is a permutation of the input for any comparator.
  It is modelled as `List.mergeSort` applied to an arbitrary comparator
  supplied per individual.
* Fallible code paths (JS reads of `undefined` followed by property access,
  i.e. out-of-bounds array reads) are modelled with `Option`: `none` is the
  JS `TypeError`.
-/

set_option linter.unusedVariables false

/-- Source `interface City`: immutable identity plus 2D coordinates. -/
structure City where
  id : Nat
  x : ℚ
  y : ℚ
deriving DecidableEq

/-- Default used only to express in-range list reads with `List.getD`. -/
def dCity : City := ⟨0, 0, 0⟩

/-- Source `interface Individual`: a path (tour) with its cached fitness and
length. -/
structure Individual where
  path : List City
  fitness : ℚ
  length : ℚ
deriving DecidableEq

/-- Source `interface GAConfig`. -/
structure GAConfig where
  cityCount : Nat
  populationSize : Nat
  mutationRate : ℚ
  crossoverRate : ℚ
  generations : Nat
deriving DecidableEq

/-- The component state the engine reads and writes: `cities`, `population`,
`bestIndividual`, `currentGen`, `isRunning` (display-only state is out of
scope). -/
structure RunState where
  cities : List City
  population : List Individual
  bestIndividual : Individual
  currentGen : Nat
  isRunning : Bool
deriving DecidableEq

/-- Source `canvasWidth`. -/
def canvasWidth : ℚ := 800

/-- Source `canvasHeight`. -/
def canvasHeight : ℚ := 600

/-- Source `generateCities`: `count` points with ids `0..count-1` and random
coordinates; the two coordinate draws of point `i` are `rx i` and `ry i`. -/
def generateCities (rx ry : ℕ → ℚ) (count : ℕ) : List City :=
  (List.range count).map fun i =>
    { id := i, x := rx i * (canvasWidth - 40) + 20, y := ry i * (canvasHeight - 40) + 20 }

/-- Source `calculatePathLength`: fold over `i < path.length` adding
`Math.hypot(next.x - curr.x, next.y - curr.y)` where
`next = path[(i + 1) % path.length]` (closed cycle). -/
def calculatePathLength (hypot : ℚ → ℚ → ℚ) (path : List City) : ℚ :=
  (List.range path.length).foldl
    (fun length i =>
      let curr := path.getD i dCity
      let next := path.getD ((i + 1) % path.length) dCity
      length + hypot (next.x - curr.x) (next.y - curr.y)) 0

/-- The edge weight the fold of `calculatePathLength` adds for the pair
`(curr, next)`: `Math.hypot(next.x - curr.x, next.y - curr.y)`. -/
def cityDist (hypot : ℚ → ℚ → ℚ) (curr next : City) : ℚ :=
  hypot (next.x - curr.x) (next.y - curr.y)

/-- Source `calculateFitness`: the reciprocal of the individual's length,
with no guard (in Lean, `1 / 0 = 0`; in JS, `1 / 0 = Infinity`). -/
def calculateFitness (individual : Individual) : ℚ :=
  1 / individual.length

/-- Source `initPopulation`: `size` individuals, each a comparison-sort
shuffle of `cities` (comparator outcomes for individual `i` are `cmps i`),
with length and fitness computed at creation. -/
def initPopulation (hypot : ℚ → ℚ → ℚ) (cmps : ℕ → City → City → Bool)
    (cities : List City) (size : ℕ) : List Individual :=
  (List.range size).map fun i =>
    let path := cities.mergeSort (cmps i)
    let length := calculatePathLength hypot path
    let fitness := calculateFitness ⟨path, 0, length⟩
    ⟨path, fitness, length⟩

/-- The `for (const ind of population)` walk of `select`: running cumulative
fitness, returning the first individual where it reaches `randomNum`. -/
def selectLoop (randomNum : ℚ) : ℚ → List Individual → Option Individual
  | _, [] => none
  | cumulativeFitness, ind :: rest =>
    let c := cumulativeFitness + ind.fitness
    if randomNum ≤ c then some ind else selectLoop randomNum c rest

/-- Source `select` (roulette wheel): `randomNum = rand * totalFitness` with
`rand` the `Math.random()` draw; on fall-through return `population[0]`
(`none` for an empty population, where JS yields `undefined`). -/
def select (population : List Individual) (rand : ℚ) : Option Individual :=
  let totalFitness := population.foldl (fun sum ind => sum + ind.fitness) 0
  let randomNum := rand * totalFitness
  match selectLoop randomNum 0 population with
  | some ind => some ind
  | none => population.head?

/-- `Math.floor(r * n)` as a natural index. -/
def floorIdx (r : ℚ) (n : ℕ) : ℕ :=
  (Int.floor (r * (n : ℚ))).toNat

/-- Source line 146: `child.some(c => c?.id === parent2.path[idx].id)`. -/
def containsId (child : List (Option City)) (i : ℕ) : Bool :=
  child.any fun oc =>
    match oc with
    | some c => c.id == i
    | none => false

/-- The inner `while` of crossover's fill phase, recursion expressed with
explicit fuel (the fuel is always at least `p2.length - idx`, so it never
runs out before the loop's own exit).  Advances `idx` past every city of
`parent2` already present in the child and returns the first index not yet
present together with the city there; `none` models the JS `TypeError` of
reading `parent2.path[idx]` past the end. -/
def skipUsedAux (child : List (Option City)) (p2 : List City) :
    ℕ → ℕ → Option (ℕ × City)
  | _, 0 => none
  | idx, fuel + 1 =>
    if h : idx < p2.length then
      if containsId child p2[idx].id then skipUsedAux child p2 (idx + 1) fuel
      else some (idx, p2[idx])
    else none

/-- The inner `while` of crossover's fill phase (see `skipUsedAux`). -/
def skipUsed (child : List (Option City)) (p2 : List City) (idx : ℕ) :
    Option (ℕ × City) :=
  skipUsedAux child p2 idx (p2.length + 1 - idx)

/-- The outer fill loop of crossover with explicit fuel (always at least
`child.length - i`, so it never runs out before `i` passes the end):
left-to-right over child positions, skipping filled slots, drawing the next
unused city of `parent2` for each empty slot. -/
def fillFromAux (p2 : List City) :
    ℕ → List (Option City) → ℕ → ℕ → Option (List (Option City))
  | 0, child, _, _ => some child
  | fuel + 1, child, p2Idx, i =>
    if i < child.length then
      match child.getD i none with
      | some _ => fillFromAux p2 fuel child p2Idx (i + 1)
      | none =>
        match skipUsed child p2 p2Idx with
        | none => none
        | some (k, c) => fillFromAux p2 fuel (child.set i (some c)) (k + 1) (i + 1)
    else some child

/-- The outer fill loop of crossover (see `fillFromAux`). -/
def fillFrom (p2 : List City) (child : List (Option City)) (p2Idx i : ℕ) :
    Option (List (Option City)) :=
  fillFromAux p2 (child.length - i) child p2Idx i

/-- Source `crossover` (order crossover, OX).  `r` is the skip draw, `rs`
and `re` the two cut-point draws.  The skip branch (`r > crossoverRate`)
returns a copy of `parent1.path`. -/
def crossover (crossoverRate : ℚ) (parent1 parent2 : Individual)
    (r rs re : ℚ) : Option (List City) :=
  if r > crossoverRate then
    some parent1.path
  else
    let pathLength := parent1.path.length
    let start := floorIdx rs pathLength
    let stop := floorIdx re pathLength
    let mn := if start < stop then start else stop
    let mx := if start < stop then stop else start
    let child : List (Option City) :=
      (List.range pathLength).map fun i =>
        if mn ≤ i ∧ i ≤ mx then parent1.path[i]? else none
    match fillFrom parent2.path child 0 0 with
    | none => none
    | some filledChild => some (filledChild.filterMap id)

/-- Source `mutate` (swap mutation): with draw `rm ≤ mutationRate`, exchange
the cities at positions `Math.floor(ri * n)` and `Math.floor(rj * n)`; the
two right-hand-side reads happen before either write. -/
def mutate (mutationRate : ℚ) (path : List City) (rm ri rj : ℚ) : List City :=
  let newPath := path
  if rm > mutationRate then newPath
  else
    let i := floorIdx ri newPath.length
    let j := floorIdx rj newPath.length
    (newPath.set i (newPath.getD j dCity)).set j (newPath.getD i dCity)

/-- The `Math.random()` draws one refill iteration of `gaIteration`
consumes: two selection draws, the crossover skip/cut draws, and the
mutation skip/position draws. -/
structure ChildRnd where
  sel1 : ℚ
  sel2 : ℚ
  cx : ℚ
  cxStart : ℚ
  cxEnd : ℚ
  mt : ℚ
  mtI : ℚ
  mtJ : ℚ
deriving DecidableEq

/-- One refill iteration of `gaIteration`: select two parents, crossover,
mutate, recompute length and fitness. -/
def mkChild (hypot : ℚ → ℚ → ℚ) (cfg : GAConfig) (population : List Individual)
    (rnd : ChildRnd) : Option Individual := do
  let parent1 ← select population rnd.sel1
  let parent2 ← select population rnd.sel2
  let childPath0 ← crossover cfg.crossoverRate parent1 parent2 rnd.cx rnd.cxStart rnd.cxEnd
  let childPath := mutate cfg.mutationRate childPath0 rnd.mt rnd.mtI rnd.mtJ
  let childLength := calculatePathLength hypot childPath
  let childFitness := calculateFitness ⟨childPath, 0, childLength⟩
  some ⟨childPath, childFitness, childLength⟩

/-- Source `gaIteration`: the generation ceiling check, elitism, the refill
loop (`populationSize - 1` children), the population swap, the best-ever
update, and the generation increment.  Display throttling is out of scope. -/
def gaIteration (hypot : ℚ → ℚ → ℚ) (cfg : GAConfig) (s : RunState)
    (rnd : ℕ → ChildRnd) : Option RunState :=
  if s.currentGen ≥ 1000 then
    some { s with isRunning := false }
  else do
    let elite ← (s.population.mergeSort fun a b => b.fitness ≤ a.fitness).head?
    let children ← (List.range (cfg.populationSize - 1)).mapM
      fun k => mkChild hypot cfg s.population (rnd k)
    let newPopulation := elite :: children
    let currentBest ← (newPopulation.mergeSort fun a b => a.length ≤ b.length).head?
    let bestIndividual :=
      if currentBest.length < s.bestIndividual.length then currentBest
      else s.bestIndividual
    some { s with
           population := newPopulation
           bestIndividual := bestIndividual
           currentGen := s.currentGen + 1 }

/-- Source `reset`: fresh cities, fresh population, initial best (the head
of the population sorted by ascending length; `none` when the population is
empty, where JS stores `undefined`), generation counter 0, not running. -/
def reset (hypot : ℚ → ℚ → ℚ) (cfg : GAConfig) (rx ry : ℕ → ℚ)
    (cmps : ℕ → City → City → Bool) : Option RunState := do
  let newCities := generateCities rx ry cfg.cityCount
  let newPopulation := initPopulation hypot cmps newCities cfg.populationSize
  let initBest ← (newPopulation.mergeSort fun a b => a.length ≤ b.length).head?
  some { cities := newCities
         population := newPopulation
         bestIndividual := initBest
         currentGen := 0
         isRunning := false }

/-- The cities a partially built crossover child already holds. -/
def filled (child : List (Option City)) : List City :=
  child.filterMap id

/-- Spec wording for §4.4 step 3: the running cumulative fitness after
individual `i` of the walk. -/
def runningFitness (population : List Individual) (i : ℕ) : ℚ :=
  ((population.take (i + 1)).map Individual.fitness).sum

/-- Spec wording for §4.4 step 3: the first position of the walk at which
the running cumulative fitness reaches `r`. -/
def firstCrossingIdx (population : List Individual) (r : ℚ) : Option ℕ :=
  (List.range population.length).find? fun i => decide (r ≤ runningFitness population i)

/-! ## Theorems -/

/-- C6: when the generation counter has reached the ceiling (the literal
1000 in `gaIteration`), a generation step only signals the controller to
stop (clears `isRunning`): the population, the best-ever record and the
generation counter are unchanged, and the step returns a valid state. -/
theorem generation_ceiling_halts (hypot : ℚ → ℚ → ℚ) (cfg : GAConfig)
    (s : RunState) (rnd : ℕ → ChildRnd) (h : 1000 ≤ s.currentGen) :
    ∃ s', gaIteration hypot cfg s rnd = some s' ∧
      s'.population = s.population ∧
      s'.bestIndividual = s.bestIndividual ∧
      s'.currentGen = s.currentGen ∧
      s'.isRunning = false := by
  refine ⟨{ s with isRunning := false }, ?_, rfl, rfl, rfl, rfl⟩
  rw [gaIteration, if_pos h]

/-- Witness for `generation_ceiling_halts` at a concrete state with
`currentGen = 1000`. -/
theorem generation_ceiling_halts_witness :
    ∃ s', gaIteration (fun _ _ => 0) ⟨20, 50, 1/20, 4/5, 20⟩
        ⟨[], [], ⟨[], 0, 0⟩, 1000, true⟩ (fun _ => ⟨0, 0, 0, 0, 0, 0, 0, 0⟩) = some s' ∧
      s'.population = [] ∧
      s'.bestIndividual = ⟨[], 0, 0⟩ ∧
      s'.currentGen = 1000 ∧
      s'.isRunning = false :=
  generation_ceiling_halts (fun _ _ => 0) ⟨20, 50, 1/20, 4/5, 20⟩
    ⟨[], [], ⟨[], 0, 0⟩, 1000, true⟩ (fun _ => ⟨0, 0, 0, 0, 0, 0, 0, 0⟩) (le_refl 1000)

/-- C7 (counterexample): `calculateFitness` is the unguarded division
`1 / length`.  At length 0 it evaluates to the division's junk value 0
(JS evaluates `1/0` to `Infinity`), which is strictly below the fitness of
an ordinary individual of length 1 — there is no large-sentinel guard, and
the total function rejects nothing. -/
theorem fitness_guard_counterexample :
    calculateFitness { path := [], fitness := 0, length := 0 } = 0 ∧
    calculateFitness { path := [], fitness := 0, length := 0 } <
      calculateFitness { path := [], fitness := 0, length := 1 } := by
  norm_num [calculateFitness]

/-- C7 (amended): when a tour's length is 0 the fitness computation has no
explicit guard: it performs the division `1 / length` unchanged, which in
the rational embedding yields 0 — not a large sentinel (it is strictly
below every positive-length individual's fitness) — and no configuration
is rejected. -/
theorem fitness_unguarded (ind : Individual) (h : ind.length = 0) :
    calculateFitness ind = 0 ∧
    ∀ ind' : Individual, 0 < ind'.length →
      calculateFitness ind < calculateFitness ind' := by
  refine ⟨by simp [calculateFitness, h], fun ind' h' => ?_⟩
  simp only [calculateFitness, h, div_zero]
  exact div_pos one_pos h'

/-- Witness for `fitness_unguarded` at the zero-length individual. -/
theorem fitness_unguarded_witness :
    calculateFitness { path := [], fitness := 0, length := 0 } = 0 ∧
    ∀ ind' : Individual, 0 < ind'.length →
      calculateFitness { path := [], fitness := 0, length := 0 } <
        calculateFitness ind' :=
  fitness_unguarded { path := [], fitness := 0, length := 0 } rfl

/-- C5 (counterexample): with `crossoverRate = 0` the skip test
`Math.random() > crossoverRate` fails on the draw `r = 0` (a value the
uniform `[0,1)` source can produce), so recombination runs; with both cut
draws 0 the child is parent1's first city followed by parent2's fill
order, which is not parent1's tour. -/
theorem crossover_passthrough_counterexample :
    crossover 0 ⟨[⟨0, 0, 0⟩, ⟨1, 10, 0⟩, ⟨2, 20, 0⟩], 0, 0⟩
        ⟨[⟨2, 20, 0⟩, ⟨1, 10, 0⟩, ⟨0, 0, 0⟩], 0, 0⟩ 0 0 0 =
      some [⟨0, 0, 0⟩, ⟨2, 20, 0⟩, ⟨1, 10, 0⟩] ∧
    some [⟨0, 0, 0⟩, ⟨2, 20, 0⟩, ⟨1, 10, 0⟩] ≠
      some (Individual.path ⟨[⟨0, 0, 0⟩, ⟨1, 10, 0⟩, ⟨2, 20, 0⟩], 0, 0⟩) := by
  constructor
  · norm_num [crossover, floorIdx, fillFrom, fillFromAux, skipUsed, skipUsedAux,
      containsId, List.range_succ, List.filterMap_cons]
  · simp [City.mk.injEq]

/-- C5 (amended): the skip branch returns a copy of parent1's tour, and it
is taken exactly when the skip draw exceeds the crossover rate; with
`crossoverRate = 0` every draw `r > 0` — all of `[0,1)` except the single
point 0 — passes parent1's tour through unchanged. -/
theorem crossover_passthrough (parent1 parent2 : Individual) (rate r rs re : ℚ)
    (hrate : rate = 0) (hr : 0 < r) :
    crossover rate parent1 parent2 r rs re = some parent1.path ∧
    ∀ rate' r' : ℚ, rate' < r' →
      crossover rate' parent1 parent2 r' rs re = some parent1.path := by
  have gen : ∀ rate' r' : ℚ, rate' < r' →
      crossover rate' parent1 parent2 r' rs re = some parent1.path := by
    intro rate' r' h
    rw [crossover, if_pos h]
  exact ⟨by rw [hrate]; exact gen 0 r (hrate ▸ hr), gen⟩

/-- Witness for `crossover_passthrough` with rate 0 and draw 1/2. -/
theorem crossover_passthrough_witness :
    crossover 0 ⟨[⟨0, 0, 0⟩], 0, 0⟩ ⟨[⟨0, 0, 0⟩], 0, 0⟩ (1/2) 0 0 =
      some (Individual.path ⟨[⟨0, 0, 0⟩], 0, 0⟩) ∧
    ∀ rate' r' : ℚ, rate' < r' →
      crossover rate' ⟨[⟨0, 0, 0⟩], 0, 0⟩ ⟨[⟨0, 0, 0⟩], 0, 0⟩ r' 0 0 =
        some (Individual.path ⟨[⟨0, 0, 0⟩], 0, 0⟩) :=
  crossover_passthrough ⟨[⟨0, 0, 0⟩], 0, 0⟩ ⟨[⟨0, 0, 0⟩], 0, 0⟩ 0 (1/2) 0 0 rfl
    (by norm_num)

/-- C2: across one generation step the recorded best-ever length never
increases, and the best-ever record is replaced only when the new
population holds a strictly shorter individual (otherwise it is exactly the
previous record). -/
theorem bestEver_monotone (hypot : ℚ → ℚ → ℚ) (cfg : GAConfig) (s : RunState)
    (rnd : ℕ → ChildRnd) (s' : RunState)
    (h : gaIteration hypot cfg s rnd = some s') :
    s'.bestIndividual.length ≤ s.bestIndividual.length ∧
    (s'.bestIndividual.length < s.bestIndividual.length ∨
      s'.bestIndividual = s.bestIndividual) := by
  rw [gaIteration] at h
  split at h
  · obtain rfl : ({ s with isRunning := false } : RunState) = s' :=
      Option.some.inj h
    exact ⟨le_refl _, Or.inr rfl⟩
  · rcases h1 : (s.population.mergeSort fun a b => decide (b.fitness ≤ a.fitness)).head?
      with _ | elite
    · rw [h1] at h; simp at h
    · rw [h1] at h
      simp only [Option.bind_eq_bind, Option.some_bind] at h
      rcases h2 : (List.range (cfg.populationSize - 1)).mapM
          (fun k => mkChild hypot cfg s.population (rnd k)) with _ | children
      · rw [h2] at h; simp at h
      · rw [h2] at h
        simp only [Option.bind_eq_bind, Option.some_bind] at h
        rcases h3 : ((elite :: children).mergeSort fun a b => decide (a.length ≤ b.length)).head?
          with _ | currentBest
        · rw [h3] at h; simp at h
        · rw [h3] at h
          simp only [Option.bind_eq_bind, Option.some_bind] at h
          obtain rfl := Option.some.inj h
          split
          · rename_i hlt
            exact ⟨le_of_lt hlt, Or.inl hlt⟩
          · exact ⟨le_refl _, Or.inr rfl⟩

/-- Witness for `bestEver_monotone`: a concrete one-individual population
whose step strictly improves the best-ever record from 7 to 5. -/
theorem bestEver_monotone_witness :
    (RunState.mk [] [⟨[], 0, 5⟩] ⟨[], 0, 5⟩ 1 true).bestIndividual.length ≤
      (RunState.mk [] [⟨[], 0, 5⟩] ⟨[], 0, 7⟩ 0 true).bestIndividual.length ∧
    ((RunState.mk [] [⟨[], 0, 5⟩] ⟨[], 0, 5⟩ 1 true).bestIndividual.length <
      (RunState.mk [] [⟨[], 0, 5⟩] ⟨[], 0, 7⟩ 0 true).bestIndividual.length ∨
     (RunState.mk [] [⟨[], 0, 5⟩] ⟨[], 0, 5⟩ 1 true).bestIndividual =
      (RunState.mk [] [⟨[], 0, 5⟩] ⟨[], 0, 7⟩ 0 true).bestIndividual) :=
  bestEver_monotone (fun _ _ => 0) ⟨0, 1, 0, 0, 20⟩
    ⟨[], [⟨[], 0, 5⟩], ⟨[], 0, 7⟩, 0, true⟩ (fun _ => ⟨0, 0, 0, 0, 0, 0, 0, 0⟩)
    ⟨[], [⟨[], 0, 5⟩], ⟨[], 0, 5⟩, 1, true⟩
    (by norm_num [gaIteration, List.mergeSort_singleton, List.mapM.loop])

lemma selectLoop_shift (pop : List Individual) : ∀ r c : ℚ,
    selectLoop r c pop = selectLoop (r - c) 0 pop := by
  induction pop with
  | nil => intro r c; rfl
  | cons x xs ih =>
    intro r c
    simp only [selectLoop]
    have hc : (r ≤ c + x.fitness) ↔ (r - c ≤ 0 + x.fitness) :=
      ⟨fun hh => by linarith, fun hh => by linarith⟩
    by_cases hx : r ≤ c + x.fitness
    · rw [if_pos hx, if_pos (hc.mp hx)]
    · rw [if_neg hx, if_neg (fun hh => hx (hc.mpr hh))]
      rw [ih r (c + x.fitness), ih (r - c) (0 + x.fitness)]
      ring_nf

lemma runningFitness_cons_zero (x : Individual) (xs : List Individual) :
    runningFitness (x :: xs) 0 = x.fitness := by
  simp [runningFitness]

lemma runningFitness_cons_succ (x : Individual) (xs : List Individual) (i : ℕ) :
    runningFitness (x :: xs) (i + 1) = x.fitness + runningFitness xs i := by
  simp [runningFitness, List.take_succ_cons]

lemma selectLoop_eq_firstCrossing (pop : List Individual) : ∀ r : ℚ,
    selectLoop r 0 pop = (firstCrossingIdx pop r).bind fun i => pop[i]? := by
  induction pop with
  | nil => intro r; simp [selectLoop, firstCrossingIdx]
  | cons x xs ih =>
    intro r
    have hpred : (fun i => decide (r ≤ runningFitness (x :: xs) (i + 1))) =
        (fun i => decide (r - x.fitness ≤ runningFitness xs i)) := by
      funext i
      rw [runningFitness_cons_succ]
      exact decide_eq_decide.mpr ⟨fun hh => by linarith, fun hh => by linarith⟩
    by_cases hx : r ≤ 0 + x.fitness
    · simp only [selectLoop, if_pos hx]
      have h0 : decide (r ≤ runningFitness (x :: xs) 0) = true := by
        rw [runningFitness_cons_zero]; exact decide_eq_true (by linarith)
      simp [firstCrossingIdx, List.range_succ_eq_map, h0]
    · simp only [selectLoop, if_neg hx]
      rw [selectLoop_shift, ih (r - (0 + x.fitness))]
      have h0 : ¬ ((fun i => decide (r ≤ runningFitness (x :: xs) i)) 0 = true) := by
        simp only [runningFitness_cons_zero, decide_eq_true_eq]
        intro hh; exact hx (by linarith)
      simp only [firstCrossingIdx, List.length_cons, List.range_succ_eq_map]
      rw [@List.find?_cons_of_neg ℕ (fun i => decide (r ≤ runningFitness (x :: xs) i)) 0
        (List.map Nat.succ (List.range xs.length)) h0, List.find?_map]
      have hcomp : ((fun i => decide (r ≤ runningFitness (x :: xs) i)) ∘ Nat.succ) =
          (fun i => decide (r - x.fitness ≤ runningFitness xs i)) := by
        funext i
        simp only [Function.comp]
        rw [show Nat.succ i = i + 1 from rfl, runningFitness_cons_succ]
        exact decide_eq_decide.mpr ⟨fun hh => by linarith, fun hh => by linarith⟩
      rw [hcomp, show r - (0 + x.fitness) = r - x.fitness from by ring]
      cases hF : (List.range xs.length).find? fun i => decide (r - x.fitness ≤ runningFitness xs i) with
      | none => simp
      | some i => simp [List.getElem?_cons_succ]

lemma foldl_add_fitness (pop : List Individual) : ∀ c : ℚ,
    pop.foldl (fun sum ind => sum + ind.fitness) c = c + (pop.map Individual.fitness).sum := by
  induction pop with
  | nil => intro c; simp
  | cons x xs ih =>
    intro c
    simp only [List.foldl_cons, List.map_cons, List.sum_cons, ih]
    ring

lemma selectLoop_mem (pop : List Individual) : ∀ r c ind,
    selectLoop r c pop = some ind → ind ∈ pop := by
  induction pop with
  | nil => intro r c ind h; exact absurd h (by simp [selectLoop])
  | cons x xs ih =>
    intro r c ind h
    simp only [selectLoop] at h
    split at h
    · exact (Option.some.inj h) ▸ List.mem_cons_self x xs
    · exact List.mem_cons_of_mem x (ih r _ ind h)

lemma runningFitness_last (pop : List Individual) (h : pop ≠ []) :
    runningFitness pop (pop.length - 1) = (pop.map Individual.fitness).sum := by
  unfold runningFitness
  rw [Nat.sub_add_cancel (Nat.one_le_iff_ne_zero.mpr (by simpa using h)),
    List.take_length]

/-- C4: for a non-empty population, `select` (i) always returns a member of
the population, (ii) returns the first individual at which the running
cumulative fitness reaches `randomNum = rand * totalFitness` when such a
crossing exists, (iii) deterministically falls back to `population[0]` when
the walk exhausts the population, and (iv) the crossing always exists when
`randomNum` lies in `[0, totalFitness)`. -/
theorem select_roulette (population : List Individual) (rand : ℚ)
    (hne : population ≠ []) :
    (∃ ind, select population rand = some ind ∧ ind ∈ population) ∧
    (∀ i, firstCrossingIdx population (rand * (population.map Individual.fitness).sum) = some i →
        select population rand = population[i]?) ∧
    (firstCrossingIdx population (rand * (population.map Individual.fitness).sum) = none →
        select population rand = population.head?) ∧
    (0 ≤ rand * (population.map Individual.fitness).sum →
        rand * (population.map Individual.fitness).sum < (population.map Individual.fitness).sum →
        ∃ i, firstCrossingIdx population (rand * (population.map Individual.fitness).sum) = some i) := by
  have hsel : select population rand =
      match selectLoop (rand * (population.map Individual.fitness).sum) 0 population with
      | some ind => some ind
      | none => population.head? := by
    rw [select, foldl_add_fitness, zero_add]
  have hloop := selectLoop_eq_firstCrossing population
    (rand * (population.map Individual.fitness).sum)
  have part2 : ∀ i, firstCrossingIdx population
      (rand * (population.map Individual.fitness).sum) = some i →
      select population rand = population[i]? := by
    intro i hF
    have hi : i < population.length :=
      List.mem_range.mp (List.mem_of_find?_eq_some hF)
    rw [hsel, hloop, hF]
    simp only [Option.some_bind]
    rw [List.getElem?_eq_getElem hi]
  have part3 : firstCrossingIdx population
      (rand * (population.map Individual.fitness).sum) = none →
      select population rand = population.head? := by
    intro hF
    rw [hsel, hloop, hF]
    simp only [Option.none_bind]
  refine ⟨?_, part2, part3, ?_⟩
  · cases hF : firstCrossingIdx population
        (rand * (population.map Individual.fitness).sum) with
    | none =>
      rcases List.exists_cons_of_ne_nil hne with ⟨a, l, rfl⟩
      exact ⟨a, by rw [part3 hF]; rfl, List.mem_cons_self a l⟩
    | some i =>
      have hi : i < population.length :=
        List.mem_range.mp (List.mem_of_find?_eq_some hF)
      exact ⟨population[i], by rw [part2 i hF, List.getElem?_eq_getElem hi],
        List.getElem_mem hi⟩
  · intro h0 h1
    have hlen : population.length - 1 ∈ List.range population.length := by
      rw [List.mem_range]
      have : population.length ≠ 0 := by simpa using hne
      omega
    have hp : (fun i => decide (rand * (population.map Individual.fitness).sum ≤
        runningFitness population i)) (population.length - 1) = true := by
      simp only [decide_eq_true_eq]
      rw [runningFitness_last population hne]
      linarith
    have hsome : (firstCrossingIdx population
        (rand * (population.map Individual.fitness).sum)).isSome := by
      unfold firstCrossingIdx
      exact List.find?_isSome.mpr ⟨population.length - 1, hlen, hp⟩
    rcases Option.isSome_iff_exists.mp hsome with ⟨i, hi⟩
    exact ⟨i, hi⟩

/-- Witness for `select_roulette` on a concrete two-individual population
with fitnesses 1 and 3 and draw 1/2. -/
theorem select_roulette_witness :
    (∃ ind, select [⟨[], 1, 1⟩, ⟨[], 3, 1/3⟩] (1/2) = some ind ∧
        ind ∈ [(⟨[], 1, 1⟩ : Individual), ⟨[], 3, 1/3⟩]) ∧
    (∀ i, firstCrossingIdx [⟨[], 1, 1⟩, ⟨[], 3, 1/3⟩]
        ((1/2) * (([(⟨[], 1, 1⟩ : Individual), ⟨[], 3, 1/3⟩]).map Individual.fitness).sum) = some i →
        select [⟨[], 1, 1⟩, ⟨[], 3, 1/3⟩] (1/2) = ([(⟨[], 1, 1⟩ : Individual), ⟨[], 3, 1/3⟩])[i]?) ∧
    (firstCrossingIdx [⟨[], 1, 1⟩, ⟨[], 3, 1/3⟩]
        ((1/2) * (([(⟨[], 1, 1⟩ : Individual), ⟨[], 3, 1/3⟩]).map Individual.fitness).sum) = none →
        select [⟨[], 1, 1⟩, ⟨[], 3, 1/3⟩] (1/2) = ([(⟨[], 1, 1⟩ : Individual), ⟨[], 3, 1/3⟩]).head?) ∧
    (0 ≤ (1/2) * (([(⟨[], 1, 1⟩ : Individual), ⟨[], 3, 1/3⟩]).map Individual.fitness).sum →
        (1/2) * (([(⟨[], 1, 1⟩ : Individual), ⟨[], 3, 1/3⟩]).map Individual.fitness).sum <
          (([(⟨[], 1, 1⟩ : Individual), ⟨[], 3, 1/3⟩]).map Individual.fitness).sum →
        ∃ i, firstCrossingIdx [⟨[], 1, 1⟩, ⟨[], 3, 1/3⟩]
          ((1/2) * (([(⟨[], 1, 1⟩ : Individual), ⟨[], 3, 1/3⟩]).map Individual.fitness).sum) = some i) :=
  select_roulette [⟨[], 1, 1⟩, ⟨[], 3, 1/3⟩] (1/2) (List.cons_ne_nil _ _)

lemma foldl_add_map_sum (f : ℕ → ℚ) (l : List ℕ) : ∀ c : ℚ,
    l.foldl (fun acc i => acc + f i) c = c + (l.map f).sum := by
  induction l with
  | nil => intro c; simp
  | cons x xs ih =>
    intro c
    simp only [List.foldl_cons, List.map_cons, List.sum_cons, ih]
    ring

lemma zip_map_eq_range_map (hypot : ℚ → ℚ → ℚ) (path : List City) (m : ℕ) :
    ((path.zip (path.rotate m)).map fun p => cityDist hypot p.1 p.2) =
      (List.range path.length).map fun i =>
        cityDist hypot (path.getD i dCity)
          (path.getD ((i + m) % path.length) dCity) := by
  apply List.ext_getElem
  · simp
  · intro i h1 h2
    have hn : i < path.length := by simpa using h2
    have hpos : 0 < path.length := lt_of_le_of_lt (Nat.zero_le i) hn
    have hmod : (i + m) % path.length < path.length := Nat.mod_lt _ hpos
    simp only [List.getElem_map, List.getElem_zip, List.getElem_range,
      List.getElem_rotate, List.getD_eq_getElem _ _ hn, List.getD_eq_getElem _ _ hmod]

lemma cpl_eq_sum (hypot : ℚ → ℚ → ℚ) (path : List City) :
    calculatePathLength hypot path =
      ((path.zip (path.rotate 1)).map fun p => cityDist hypot p.1 p.2).sum := by
  have hfun : (fun (length : ℚ) (i : ℕ) =>
      let curr := path.getD i dCity
      let next := path.getD ((i + 1) % path.length) dCity
      length + hypot (next.x - curr.x) (next.y - curr.y)) =
      (fun acc i => acc + cityDist hypot (path.getD i dCity)
        (path.getD ((i + 1) % path.length) dCity)) := rfl
  rw [calculatePathLength, zip_map_eq_range_map, hfun, foldl_add_map_sum, zero_add]

lemma zip_rotate {α β : Type} (l₁ : List α) (l₂ : List β) (k : ℕ)
    (h : l₁.length = l₂.length) :
    (l₁.rotate k).zip (l₂.rotate k) = (l₁.zip l₂).rotate k := by
  apply List.ext_getElem
  · simp [h]
  · intro i h1 h2
    have hn : i < l₁.length := by simpa [h] using h1
    simp only [List.getElem_zip, List.getElem_rotate, List.length_zip, List.length_rotate, h,
      Nat.min_self]

lemma cpl_rotate (hypot : ℚ → ℚ → ℚ) (path : List City) (k : ℕ) :
    calculatePathLength hypot (path.rotate k) = calculatePathLength hypot path := by
  rw [cpl_eq_sum, cpl_eq_sum]
  rw [List.rotate_rotate, Nat.add_comm k 1, ← List.rotate_rotate]
  rw [zip_rotate _ _ _ (by simp)]
  rw [List.map_rotate]
  exact ((path.zip (path.rotate 1)).map fun p => cityDist hypot p.1 p.2).rotate_perm k |>.sum_eq

lemma zip_reverse {α β : Type} (l₁ : List α) (l₂ : List β) (h : l₁.length = l₂.length) :
    l₁.reverse.zip l₂.reverse = (l₁.zip l₂).reverse := by
  apply List.ext_getElem
  · simp [h]
  · intro i h1 h2
    simp only [List.getElem_zip, List.getElem_reverse, List.length_reverse, List.length_zip,
      h, Nat.min_self]

lemma cityDist_symm (hypot : ℚ → ℚ → ℚ) (hsym : ∀ x y, hypot (-x) (-y) = hypot x y)
    (a b : City) : cityDist hypot a b = cityDist hypot b a := by
  unfold cityDist
  rw [show a.x - b.x = -(b.x - a.x) from by ring, show a.y - b.y = -(b.y - a.y) from by ring,
    hsym]

lemma mod_shift_inv (n i : ℕ) (hn : 0 < n) (hi : i < n) :
    ((i + (n - 1)) % n + 1) % n = i := by
  rw [Nat.mod_add_mod]
  have h : i + (n - 1) + 1 = i + n := by omega
  rw [h, Nat.add_mod_right, Nat.mod_eq_of_lt hi]

lemma mod_shift_inv' (n x : ℕ) (hn : 0 < n) (hx : x < n) :
    ((x + 1) % n + (n - 1)) % n = x := by
  rw [Nat.mod_add_mod]
  have h : x + 1 + (n - 1) = x + n := by omega
  rw [h, Nat.add_mod_right, Nat.mod_eq_of_lt hx]

lemma range_shift_perm (n : ℕ) (hn : 0 < n) :
    ((List.range n).map fun i => (i + (n - 1)) % n).Perm (List.range n) := by
  have hnd : ((List.range n).map fun i => (i + (n - 1)) % n).Nodup := by
    refine List.Nodup.map_on ?_ (List.nodup_range n)
    intro x hx y hy hxy
    have hx' : x < n := List.mem_range.mp hx
    have hy' : y < n := List.mem_range.mp hy
    have h2 := congrArg (fun z => (z + 1) % n) hxy
    simpa [mod_shift_inv n x hn hx', mod_shift_inv n y hn hy'] using h2
  refine (List.perm_ext_iff_of_nodup hnd (List.nodup_range n)).mpr ?_
  intro a
  simp only [List.mem_map, List.mem_range]
  constructor
  · rintro ⟨i, hi, rfl⟩
    exact Nat.mod_lt _ hn
  · intro ha
    exact ⟨(a + 1) % n, Nat.mod_lt _ hn, mod_shift_inv' n a hn ha⟩

lemma cpl_reverse (hypot : ℚ → ℚ → ℚ) (hsym : ∀ x y, hypot (-x) (-y) = hypot x y)
    (path : List City) :
    calculatePathLength hypot path.reverse = calculatePathLength hypot path := by
  by_cases hlen : path.length ≤ 1
  · interval_cases h : path.length
    · rw [List.length_eq_zero.mp h]; rfl
    · obtain ⟨x, rfl⟩ := List.length_eq_one.mp h
      rfl
  · push_neg at hlen
    have hpos : 0 < path.length := by omega
    rw [cpl_eq_sum, cpl_eq_sum, List.rotate_reverse, Nat.mod_eq_of_lt hlen,
      zip_reverse _ _ (by simp), List.map_reverse, List.sum_reverse,
      zip_map_eq_range_map, zip_map_eq_range_map]
    have hmapeq : ((List.range path.length).map fun i =>
        cityDist hypot (path.getD i dCity)
          (path.getD ((i + (path.length - 1)) % path.length) dCity)) =
        (List.range path.length).map
          ((fun j => cityDist hypot (path.getD j dCity)
            (path.getD ((j + 1) % path.length) dCity)) ∘
           (fun i => (i + (path.length - 1)) % path.length)) := by
      apply List.map_congr_left
      intro i hi
      have hi' : i < path.length := List.mem_range.mp hi
      simp only [Function.comp]
      rw [mod_shift_inv path.length i hpos hi']
      exact cityDist_symm hypot hsym _ _
    rw [hmapeq, ← List.map_map]
    exact ((range_shift_perm path.length hpos).map _).sum_eq

lemma cpl_nonneg (hypot : ℚ → ℚ → ℚ) (hnn : ∀ x y, 0 ≤ hypot x y) (path : List City) :
    0 ≤ calculatePathLength hypot path := by
  rw [cpl_eq_sum]
  apply List.sum_nonneg
  intro q hq
  rcases List.mem_map.mp hq with ⟨p, hp, rfl⟩
  exact hnn _ _

/-- C8: `tourLength` is non-negative (given `Math.hypot ≥ 0`), deterministic
(a pure function of the tour), and invariant under every cyclic rotation of
the tour and under reversal (given that `Math.hypot` is unchanged by
negating both arguments, which holds for the real and the IEEE `hypot`). -/
theorem tourLength_properties (hypot : ℚ → ℚ → ℚ)
    (hnn : ∀ x y, 0 ≤ hypot x y)
    (hsym : ∀ x y, hypot (-x) (-y) = hypot x y) (path : List City) :
    0 ≤ calculatePathLength hypot path ∧
    (∀ path' : List City, path' = path →
      calculatePathLength hypot path' = calculatePathLength hypot path) ∧
    (∀ k, calculatePathLength hypot (path.rotate k) = calculatePathLength hypot path) ∧
    calculatePathLength hypot path.reverse = calculatePathLength hypot path :=
  ⟨cpl_nonneg hypot hnn path, fun _ h => by rw [h], cpl_rotate hypot path,
    cpl_reverse hypot hsym path⟩

/-- Witness for `tourLength_properties` with the concrete weight
`fun x y => x^2 + y^2` (non-negative and sign-symmetric) on a three-city
tour. -/
theorem tourLength_properties_witness :
    0 ≤ calculatePathLength (fun x y => x^2 + y^2) [⟨0, 0, 0⟩, ⟨1, 3, 4⟩, ⟨2, 6, 0⟩] ∧
    (∀ path' : List City, path' = [⟨0, 0, 0⟩, ⟨1, 3, 4⟩, ⟨2, 6, 0⟩] →
      calculatePathLength (fun x y => x^2 + y^2) path' =
        calculatePathLength (fun x y => x^2 + y^2) [⟨0, 0, 0⟩, ⟨1, 3, 4⟩, ⟨2, 6, 0⟩]) ∧
    (∀ k, calculatePathLength (fun x y => x^2 + y^2)
        (([⟨0, 0, 0⟩, ⟨1, 3, 4⟩, ⟨2, 6, 0⟩] : List City).rotate k) =
      calculatePathLength (fun x y => x^2 + y^2) [⟨0, 0, 0⟩, ⟨1, 3, 4⟩, ⟨2, 6, 0⟩]) ∧
    calculatePathLength (fun x y => x^2 + y^2)
        ([⟨0, 0, 0⟩, ⟨1, 3, 4⟩, ⟨2, 6, 0⟩] : List City).reverse =
      calculatePathLength (fun x y => x^2 + y^2) [⟨0, 0, 0⟩, ⟨1, 3, 4⟩, ⟨2, 6, 0⟩] :=
  tourLength_properties (fun x y => x^2 + y^2) (fun x y => by positivity)
    (fun x y => by ring) [⟨0, 0, 0⟩, ⟨1, 3, 4⟩, ⟨2, 6, 0⟩]

lemma containsId_iff (child : List (Option City)) (n : ℕ) :
    containsId child n = true ↔ ∃ c ∈ filled child, c.id = n := by
  unfold containsId filled
  rw [List.any_eq_true]
  constructor
  · rintro ⟨oc, hoc, hp⟩
    cases oc with
    | none => exact absurd hp (by simp)
    | some c =>
      exact ⟨c, List.mem_filterMap.mpr ⟨some c, hoc, rfl⟩, by simpa using hp⟩
  · rintro ⟨c, hc, rfl⟩
    rcases List.mem_filterMap.mp hc with ⟨oc, hoc, hid⟩
    refine ⟨oc, hoc, ?_⟩
    cases oc with
    | none => simp at hid
    | some c' =>
      simp only [id_eq, Option.some.injEq] at hid
      subst hid
      simp

lemma filled_set_perm (child : List (Option City)) (i : ℕ) (c : City)
    (hi : i < child.length) (hnone : child.getD i none = none) :
    (filled (child.set i (some c))).Perm (c :: filled child) := by
  have hget : child[i] = none := by
    have h2 := hnone
    rw [List.getD_eq_getElem?_getD, List.getElem?_eq_getElem hi] at h2
    simpa using h2
  have hsplit : child.take i ++ none :: child.drop (i + 1) = child := by
    rw [← hget, List.getElem_cons_drop, List.take_append_drop]
  have hset : child.set i (some c) =
      child.take i ++ some c :: child.drop (i + 1) :=
    List.set_eq_take_cons_drop (some c) hi
  unfold filled
  conv_rhs => rw [← hsplit]
  rw [hset, List.filterMap_append, List.filterMap_append,
    List.filterMap_cons_some (show (id (some c) : Option City) = some c from rfl),
    List.filterMap_cons_none (show (id (none : Option City)) = none from rfl)]
  exact List.perm_middle

lemma filled_length_lt (child : List (Option City)) (i : ℕ)
    (hi : i < child.length) (hnone : child.getD i none = none) :
    (filled child).length < child.length := by
  have hget : child[i] = none := by
    have h2 := hnone
    rw [List.getD_eq_getElem?_getD, List.getElem?_eq_getElem hi] at h2
    simpa using h2
  have hsplit : child.take i ++ none :: child.drop (i + 1) = child := by
    rw [← hget, List.getElem_cons_drop, List.take_append_drop]
  conv_lhs => rw [← hsplit]
  conv_rhs => rw [← hsplit]
  unfold filled
  rw [List.filterMap_append,
    List.filterMap_cons_none (show (id (none : Option City)) = none from rfl)]
  simp only [List.length_append, List.length_cons]
  have h1 := List.length_filterMap_le id (child.take i)
  have h2 := List.length_filterMap_le id (child.drop (i + 1))
  have h3 : (child.take i).length = i := by
    rw [List.length_take]
    omega
  have h4 : (child.drop (i + 1)).length = child.length - (i + 1) :=
    List.length_drop (i + 1) child
  omega

lemma filled_length_eq (child : List (Option City))
    (hfull : ∀ j, j < child.length → child.getD j none ≠ none) :
    (filled child).length = child.length := by
  induction child with
  | nil => rfl
  | cons oc rest ih =>
    cases hoc : oc with
    | none =>
      exact absurd (by simp [hoc]) (hfull 0 (by simp))
    | some c =>
      subst hoc
      have hstep : filled (some c :: rest) = c :: filled rest :=
        List.filterMap_cons_some (show (id (some c) : Option City) = some c from rfl)
      rw [hstep, List.length_cons, List.length_cons]
      exact congrArg (· + 1)
        (ih fun j hj => by simpa using hfull (j + 1) (by simpa using hj))

lemma skipUsedAux_none (child : List (Option City)) (p2 : List City) :
    ∀ fuel idx, p2.length - idx < fuel →
      skipUsedAux child p2 idx fuel = none →
      ∀ j, idx ≤ j → j < p2.length → containsId child ((p2.getD j dCity).id) = true := by
  intro fuel
  induction fuel with
  | zero => intro idx h; omega
  | succ fuel ih =>
    intro idx hfuel h j hj1 hj2
    rw [skipUsedAux] at h
    by_cases hidx : idx < p2.length
    · rw [dif_pos hidx] at h
      by_cases hcid : containsId child p2[idx].id
      · rw [if_pos hcid] at h
        rcases Nat.lt_or_ge idx j with hlt | hge
        · exact ih (idx + 1) (by omega) h j hlt hj2
        · have : j = idx := by omega
          subst this
          rw [List.getD_eq_getElem p2 dCity hj2]
          exact hcid
      · rw [if_neg hcid] at h
        exact absurd h (by simp)
    · omega

lemma skipUsedAux_some (child : List (Option City)) (p2 : List City) :
    ∀ fuel idx k c, skipUsedAux child p2 idx fuel = some (k, c) →
      idx ≤ k ∧ k < p2.length ∧ c = p2.getD k dCity ∧
      containsId child c.id = false ∧
      ∀ j, idx ≤ j → j < k → containsId child ((p2.getD j dCity).id) = true := by
  intro fuel
  induction fuel with
  | zero => intro idx k c h; exact absurd h (by simp [skipUsedAux])
  | succ fuel ih =>
    intro idx k c h
    rw [skipUsedAux] at h
    by_cases hidx : idx < p2.length
    · rw [dif_pos hidx] at h
      by_cases hcid : containsId child p2[idx].id
      · rw [if_pos hcid] at h
        obtain ⟨h1, h2, h3, h4, h5⟩ := ih (idx + 1) k c h
        refine ⟨by omega, h2, h3, h4, ?_⟩
        intro j hj1 hj2
        rcases Nat.lt_or_ge idx j with hlt | hge
        · exact h5 j hlt hj2
        · have hje : j = idx := by omega
          subst hje
          rw [List.getD_eq_getElem p2 dCity hidx]
          exact hcid
      · rw [if_neg hcid] at h
        obtain ⟨rfl, rfl⟩ : k = idx ∧ c = p2[idx] := by
          have h2 := Option.some.inj h
          rw [Prod.mk.injEq] at h2
          exact ⟨h2.1.symm, h2.2.symm⟩
        refine ⟨le_refl _, hidx, (List.getD_eq_getElem p2 dCity hidx).symm, ?_, ?_⟩
        · simpa using hcid
        · intro j hj1 hj2
          omega
    · rw [dif_neg hidx] at h
      exact absurd h (by simp)

lemma skipUsed_none (child : List (Option City)) (p2 : List City) (idx : ℕ)
    (h : skipUsed child p2 idx = none) :
    ∀ j, idx ≤ j → j < p2.length → containsId child ((p2.getD j dCity).id) = true := by
  intro j hj1 hj2
  by_cases hidx : idx ≤ p2.length
  · exact skipUsedAux_none child p2 (p2.length + 1 - idx) idx (by omega) h j hj1 hj2
  · omega

lemma skipUsed_some (child : List (Option City)) (p2 : List City) (idx k : ℕ) (c : City)
    (h : skipUsed child p2 idx = some (k, c)) :
    idx ≤ k ∧ k < p2.length ∧ c = p2.getD k dCity ∧
      containsId child c.id = false ∧
      ∀ j, idx ≤ j → j < k → containsId child ((p2.getD j dCity).id) = true :=
  skipUsedAux_some child p2 (p2.length + 1 - idx) idx k c h

lemma filled_perm_of_full (cities : List City) (hids : (cities.map City.id).Nodup)
    (child : List (Option City))
    (hlen : child.length = cities.length)
    (hsub : ∀ c ∈ filled child, c ∈ cities)
    (hnd : ((filled child).map City.id).Nodup)
    (hfull : ∀ j, j < child.length → child.getD j none ≠ none) :
    (filled child).Perm cities := by
  have hflen : (filled child).length = child.length := filled_length_eq child hfull
  have hfnodup : (filled child).Nodup := List.Nodup.of_map _ hnd
  have hcnodup : cities.Nodup := List.Nodup.of_map _ hids
  refine (List.perm_ext_iff_of_nodup hfnodup hcnodup).mpr fun a => ⟨fun ha => hsub a ha, ?_⟩
  intro ha
  have hsubF : ((filled child).map City.id).toFinset ⊆ (cities.map City.id).toFinset := by
    intro x hx
    simp only [List.mem_toFinset, List.mem_map] at hx ⊢
    rcases hx with ⟨c, hc, rfl⟩
    exact ⟨c, hsub c hc, rfl⟩
  have hcard1 : ((filled child).map City.id).toFinset.card = cities.length := by
    rw [List.toFinset_card_of_nodup hnd, List.length_map, hflen, hlen]
  have hcard2 : (cities.map City.id).toFinset.card = cities.length := by
    rw [List.toFinset_card_of_nodup hids, List.length_map]
  have heqF : ((filled child).map City.id).toFinset = (cities.map City.id).toFinset :=
    Finset.eq_of_subset_of_card_le hsubF (by omega)
  have haid : a.id ∈ ((filled child).map City.id).toFinset := by
    rw [heqF]
    simp only [List.mem_toFinset, List.mem_map]
    exact ⟨a, ha, rfl⟩
  simp only [List.mem_toFinset, List.mem_map] at haid
  rcases haid with ⟨c, hc, hcid⟩
  exact (List.inj_on_of_nodup_map hids (hsub c hc) ha hcid) ▸ hc

lemma fillFromAux_spec (cities p2 : List City)
    (hp2 : p2.Perm cities) (hids : (cities.map City.id).Nodup) :
    ∀ fuel (child : List (Option City)) (p2Idx i : ℕ),
      child.length - i ≤ fuel →
      child.length = cities.length →
      (∀ c ∈ filled child, c ∈ cities) →
      ((filled child).map City.id).Nodup →
      (∀ j, j < p2Idx → j < p2.length → containsId child ((p2.getD j dCity).id) = true) →
      (∀ j, j < i → child.getD j none ≠ none) →
      ∃ child', fillFromAux p2 fuel child p2Idx i = some child' ∧
        (filled child').Perm cities := by
  intro fuel
  induction fuel with
  | zero =>
    intro child p2Idx i hfuel hlen hsub hnd hpre hfill
    refine ⟨child, rfl, filled_perm_of_full cities hids child hlen hsub hnd ?_⟩
    intro j hj
    exact hfill j (by omega)
  | succ fuel ih =>
    intro child p2Idx i hfuel hlen hsub hnd hpre hfill
    by_cases hi : i < child.length
    · rw [fillFromAux, if_pos hi]
      cases hoc : child.getD i none with
      | some c0 =>
        exact ih child p2Idx (i + 1) (by omega) hlen hsub hnd hpre
          (fun j hj => by
            rcases Nat.lt_succ_iff_lt_or_eq.mp hj with hlt | heq
            · exact hfill j hlt
            · subst heq; rw [hoc]; simp)
      | none =>
        cases hsu : skipUsed child p2 p2Idx with
        | none =>
          exfalso
          have hall : ∀ j, j < p2.length →
              containsId child ((p2.getD j dCity).id) = true := by
            intro j hj
            rcases Nat.lt_or_ge j p2Idx with hlt | hge
            · exact hpre j hlt hj
            · exact skipUsed_none child p2 p2Idx hsu j hge hj
          have hsubF : (p2.map City.id).toFinset ⊆
              ((filled child).map City.id).toFinset := by
            intro x hx
            simp only [List.mem_toFinset, List.mem_map] at hx ⊢
            rcases hx with ⟨c, hcmem, rfl⟩
            rcases List.getElem_of_mem hcmem with ⟨j, hjlen, hjc⟩
            have hcontains := hall j hjlen
            rw [List.getD_eq_getElem p2 dCity hjlen, hjc] at hcontains
            rcases (containsId_iff child c.id).mp hcontains with ⟨c', hc', hc'id⟩
            exact ⟨c', hc', hc'id⟩
          have hp2nd : (p2.map City.id).Nodup := ((hp2.map City.id).nodup_iff).mpr hids
          have hc1 : (p2.map City.id).toFinset.card = cities.length := by
            rw [List.toFinset_card_of_nodup hp2nd, List.length_map, hp2.length_eq]
          have hc2 : ((filled child).map City.id).toFinset.card ≤ (filled child).length := by
            calc ((filled child).map City.id).toFinset.card
                ≤ ((filled child).map City.id).length := List.toFinset_card_le _
              _ = (filled child).length := List.length_map _ _
          have hflt := filled_length_lt child i hi hoc
          have hccle := Finset.card_le_card hsubF
          omega
        | some kc =>
          obtain ⟨k, c⟩ := kc
          obtain ⟨hk1, hk2, hc, hcnot, hbetween⟩ := skipUsed_some child p2 p2Idx k c hsu
          have hcmem : c ∈ cities := by
            rw [hc, List.getD_eq_getElem p2 dCity hk2]
            exact hp2.mem_iff.mp (List.getElem_mem hk2)
          have hpermf : (filled (child.set i (some c))).Perm (c :: filled child) :=
            filled_set_perm child i c hi hoc
          have hmono : ∀ m, containsId child m = true →
              containsId (child.set i (some c)) m = true := by
            intro m hm
            rcases (containsId_iff child m).mp hm with ⟨c', hc', hc'id⟩
            exact (containsId_iff _ m).mpr
              ⟨c', hpermf.mem_iff.mpr (List.mem_cons_of_mem c hc'), hc'id⟩
          refine ih (child.set i (some c)) (k + 1) (i + 1) ?_ ?_ ?_ ?_ ?_ ?_
          · rw [List.length_set]; omega
          · rw [List.length_set]; exact hlen
          · intro x hx
            rcases List.mem_cons.mp (hpermf.mem_iff.mp hx) with rfl | hmem
            · exact hcmem
            · exact hsub x hmem
          · refine ((hpermf.map City.id).nodup_iff).mpr ?_
            rw [List.map_cons]
            refine List.nodup_cons.mpr ⟨?_, hnd⟩
            intro hmem
            rcases List.mem_map.mp hmem with ⟨c', hc', hc'id⟩
            have hcontr : containsId child c.id = true :=
              (containsId_iff child c.id).mpr ⟨c', hc', hc'id⟩
            rw [hcnot] at hcontr
            exact absurd hcontr (by simp)
          · intro j hj hjlen
            rcases Nat.lt_succ_iff_lt_or_eq.mp hj with hlt | heq
            · rcases Nat.lt_or_ge j p2Idx with hlt2 | hge2
              · exact hmono _ (hpre j hlt2 hjlen)
              · exact hmono _ (hbetween j hge2 hlt)
            · subst heq
              exact (containsId_iff _ _).mpr
                ⟨c, hpermf.mem_iff.mpr (List.mem_cons_self c _), by rw [← hc]⟩
          · intro j hj
            rcases Nat.lt_succ_iff_lt_or_eq.mp hj with hlt | heq
            · rw [List.getD_eq_getElem?_getD,
                List.getElem?_set_ne (show i ≠ j by omega),
                ← List.getD_eq_getElem?_getD]
              exact hfill j hlt
            · subst heq
              rw [List.getD_eq_getElem?_getD, List.getElem?_set_self hi]
              simp
    · rw [fillFromAux, if_neg hi]
      refine ⟨child, rfl, filled_perm_of_full cities hids child hlen hsub hnd ?_⟩
      intro j hj
      exact hfill j (by omega)

lemma filterMap_refine_sublist {α β : Type} (f g : α → Option β) :
    ∀ l : List α, (∀ a ∈ l, f a = none ∨ f a = g a) →
      (l.filterMap f).Sublist (l.filterMap g) := by
  intro l
  induction l with
  | nil => intro h; simp
  | cons a l ih =>
    intro h
    have ha := h a (List.mem_cons_self a l)
    have hrest := ih fun b hb => h b (List.mem_cons_of_mem a hb)
    rcases ha with ha | ha
    · rw [List.filterMap_cons_none ha]
      cases hg : g a with
      | none => rw [List.filterMap_cons_none hg]; exact hrest
      | some b => rw [List.filterMap_cons_some hg]; exact hrest.cons b
    · rw [List.filterMap_cons, ha]
      cases hg : g a with
      | none => rw [List.filterMap_cons_none hg]; exact hrest
      | some b => rw [List.filterMap_cons_some hg]; exact hrest.cons₂ b

lemma range_filterMap_getElem? (l : List City) :
    (List.range l.length).filterMap (fun i => l[i]?) = l := by
  induction l with
  | nil => rfl
  | cons x xs ih =>
    rw [List.length_cons, List.range_succ_eq_map,
      List.filterMap_cons_some (show (x :: xs)[0]? = some x from List.getElem?_cons_zero),
      List.filterMap_map]
    congr 1
    rw [show ((fun i => (x :: xs)[i]?) ∘ Nat.succ) = fun i => xs[i]? from
      funext fun i => List.getElem?_cons_succ]
    exact ih

lemma segChild_filled_sublist (p1path : List City) (mn mx : ℕ) :
    (filled ((List.range p1path.length).map fun i =>
      if mn ≤ i ∧ i ≤ mx then p1path[i]? else none)).Sublist p1path := by
  unfold filled
  rw [List.filterMap_map]
  have hrefine : ∀ a ∈ List.range p1path.length,
      (id ∘ fun i => if mn ≤ i ∧ i ≤ mx then p1path[i]? else none) a = none ∨
      (id ∘ fun i => if mn ≤ i ∧ i ≤ mx then p1path[i]? else none) a =
        (fun i => p1path[i]?) a := by
    intro a ha
    by_cases hab : mn ≤ a ∧ a ≤ mx
    · right; simp [hab]
    · left; simp [hab]
  have := filterMap_refine_sublist
    (id ∘ fun i => if mn ≤ i ∧ i ≤ mx then p1path[i]? else none)
    (fun i => p1path[i]?) (List.range p1path.length) hrefine
  rw [range_filterMap_getElem?] at this
  exact this

lemma crossover_perm (cities : List City) (hids : (cities.map City.id).Nodup)
    (p1 p2 : Individual) (h1 : p1.path.Perm cities) (h2 : p2.path.Perm cities)
    (rate r rs re : ℚ) :
    ∃ child, crossover rate p1 p2 r rs re = some child ∧ child.Perm cities := by
  by_cases hskip : rate < r
  · refine ⟨p1.path, ?_, h1⟩
    rw [crossover, if_pos hskip]
  · have hp1nd : (p1.path.map City.id).Nodup := ((h1.map City.id).nodup_iff).mpr hids
    set mn : ℕ := if floorIdx rs p1.path.length < floorIdx re p1.path.length
      then floorIdx rs p1.path.length else floorIdx re p1.path.length with hmn
    set mx : ℕ := if floorIdx rs p1.path.length < floorIdx re p1.path.length
      then floorIdx re p1.path.length else floorIdx rs p1.path.length with hmx
    set child0 : List (Option City) := (List.range p1.path.length).map fun i =>
      if mn ≤ i ∧ i ≤ mx then p1.path[i]? else none with hchild0
    have hsub0 : (filled child0).Sublist p1.path := segChild_filled_sublist p1.path mn mx
    obtain ⟨child', hfill, hperm⟩ := fillFromAux_spec cities p2.path h2 hids
      (child0.length - 0) child0 0 0 (le_refl _)
      (by rw [hchild0]; simp [h1.length_eq])
      (fun c hc => h1.mem_iff.mp (hsub0.subset hc))
      ((hsub0.map City.id).nodup hp1nd)
      (fun j hj _ => absurd hj (by omega))
      (fun j hj => absurd hj (by omega))
    refine ⟨child'.filterMap id, ?_, hperm⟩
    rw [crossover, if_neg hskip]
    show (match fillFrom p2.path child0 0 0 with
      | none => none
      | some filledChild => some (filledChild.filterMap id)) = some (child'.filterMap id)
    rw [fillFrom, hfill]

lemma set_perm_cons_eraseIdx {α : Type} (l : List α) (m : ℕ) (a : α)
    (hm : m < l.length) : (l.set m a).Perm (a :: l.eraseIdx m) := by
  rw [List.set_eq_take_cons_drop a hm, List.eraseIdx_eq_take_drop_succ]
  exact List.perm_middle

lemma getElem_cons_eraseIdx_perm {α : Type} (l : List α) (m : ℕ)
    (hm : m < l.length) : (l[m] :: l.eraseIdx m).Perm l := by
  rw [List.eraseIdx_eq_take_drop_succ]
  refine List.perm_middle.symm.trans (List.Perm.of_eq ?_)
  rw [List.getElem_cons_drop, List.take_append_drop]

lemma eraseIdx_set_comm {α : Type} (l : List α) (i j : ℕ) (b : α)
    (hij : i ≠ j) (hj : j < l.length) :
    (l.set i b).eraseIdx j = (l.eraseIdx j).set (if i < j then i else i - 1) b := by
  apply List.ext_getElem
  · simp [List.length_eraseIdx, List.length_set]
  · intro t h1 h2
    by_cases hcase : i < j
    · simp only [if_pos hcase]
      rw [List.getElem_eraseIdx]
      by_cases hlt : t < j
      · rw [dif_pos hlt, List.getElem_set, List.getElem_set, List.getElem_eraseIdx,
          dif_pos hlt]
      · rw [dif_neg hlt, List.getElem_set, List.getElem_set, List.getElem_eraseIdx,
          dif_neg hlt, if_neg (show ¬ i = t + 1 by omega),
          if_neg (show ¬ i = t by omega)]
    · simp only [if_neg hcase]
      rw [List.getElem_eraseIdx]
      by_cases hlt : t < j
      · rw [dif_pos hlt, List.getElem_set, List.getElem_set, List.getElem_eraseIdx,
          dif_pos hlt, if_neg (show ¬ i = t by omega),
          if_neg (show ¬ i - 1 = t by omega)]
      · rw [dif_neg hlt, List.getElem_set, List.getElem_set, List.getElem_eraseIdx,
          dif_neg hlt]
        by_cases hit : i = t + 1
        · rw [if_pos hit, if_pos (show i - 1 = t by omega)]
        · rw [if_neg hit, if_neg (show ¬ i - 1 = t by omega)]

lemma set_getElem_self_eq {α : Type} (l : List α) (i : ℕ) (hi : i < l.length) :
    l.set i l[i] = l := by
  apply List.ext_getElem
  · simp
  · intro t h1 h2
    rw [List.getElem_set]
    split
    · rename_i h; subst h; rfl
    · rfl

lemma set_set_swap_perm {α : Type} (l : List α) (d : α) (i j : ℕ)
    (hi : i < l.length) (hj : j < l.length) :
    ((l.set i (l.getD j d)).set j (l.getD i d)).Perm l := by
  rw [List.getD_eq_getElem l d hj, List.getD_eq_getElem l d hi]
  by_cases hij : i = j
  · subst hij
    rw [List.set_set, set_getElem_self_eq l i hi]
  · have hj' : j < (l.set i l[j]).length := by
      rw [List.length_set]; exact hj
    have hstep1 : ((l.set i l[j]).set j l[i]).Perm (l[i] :: (l.set i l[j]).eraseIdx j) :=
      set_perm_cons_eraseIdx (l.set i l[j]) j l[i] hj'
    have hstep2 : (l.set i l[j]).eraseIdx j =
        (l.eraseIdx j).set (if i < j then i else i - 1) l[j] :=
      eraseIdx_set_comm l i j l[j] hij hj
    have hi' : (if i < j then i else i - 1) < (l.eraseIdx j).length := by
      rw [List.length_eraseIdx_of_lt hj]
      split_ifs <;> omega
    have hstep3 : ((l.eraseIdx j).set (if i < j then i else i - 1) l[j]).Perm
        (l[j] :: (l.eraseIdx j).eraseIdx (if i < j then i else i - 1)) :=
      set_perm_cons_eraseIdx (l.eraseIdx j) (if i < j then i else i - 1) l[j] hi'
    have hback2 : (l.eraseIdx j)[if i < j then i else i - 1] = l[i] := by
      by_cases hcase : i < j
      · simp only [if_pos hcase]
        rw [List.getElem_eraseIdx, dif_pos hcase]
      · simp only [if_neg hcase]
        rw [List.getElem_eraseIdx, dif_neg (show ¬ i - 1 < j by omega)]
        congr 1
        omega
    have hback1 : ((l.eraseIdx j)[if i < j then i else i - 1] ::
        (l.eraseIdx j).eraseIdx (if i < j then i else i - 1)).Perm (l.eraseIdx j) :=
      getElem_cons_eraseIdx_perm (l.eraseIdx j) (if i < j then i else i - 1) hi'
    have hback0 : (l[j] :: l.eraseIdx j).Perm l :=
      getElem_cons_eraseIdx_perm l j hj
    refine hstep1.trans ?_
    rw [hstep2]
    refine (List.Perm.cons _ hstep3).trans ?_
    refine (List.Perm.swap _ _ _).trans ?_
    rw [← hback2]
    exact (List.Perm.cons _ hback1).trans hback0

lemma floorIdx_lt (r : ℚ) (n : ℕ) (h0 : 0 ≤ r) (h1 : r < 1) (hn : 0 < n) :
    floorIdx r n < n := by
  unfold floorIdx
  have hcast : (0:ℚ) < (n : ℚ) := by exact_mod_cast hn
  have hlt : Int.floor (r * (n : ℚ)) < (n : ℤ) := by
    apply Int.floor_lt.mpr
    push_cast
    nlinarith
  have hge : (0:ℤ) ≤ Int.floor (r * (n : ℚ)) :=
    Int.floor_nonneg.mpr (by positivity)
  omega

lemma mutate_perm (mutationRate : ℚ) (path : List City) (rm ri rj : ℚ)
    (hri0 : 0 ≤ ri) (hri1 : ri < 1) (hrj0 : 0 ≤ rj) (hrj1 : rj < 1) :
    (mutate mutationRate path rm ri rj).Perm path := by
  show (if rm > mutationRate then path else
    (path.set (floorIdx ri path.length) (path.getD (floorIdx rj path.length) dCity)).set
      (floorIdx rj path.length) (path.getD (floorIdx ri path.length) dCity)).Perm path
  split
  · exact List.Perm.refl path
  · rcases Nat.eq_zero_or_pos path.length with hz | hpos
    · obtain rfl := List.length_eq_zero.mp hz
      simp
    · exact set_set_swap_perm path dCity _ _
        (floorIdx_lt ri _ hri0 hri1 hpos) (floorIdx_lt rj _ hrj0 hrj1 hpos)

/-- C1: every tour produced by population initialization, by crossover, or
by mutation is a permutation of the original point set — each point appears
exactly once (no duplicate ids, no omissions) and the length equals the
point count — for any rates in `[0,1]`, any `[0,1)` draws, and any two
valid parent tours over a duplicate-free non-empty point set. -/
theorem permutation_invariant (hypot : ℚ → ℚ → ℚ) (cmps : ℕ → City → City → Bool)
    (cities : List City) (hids : (cities.map City.id).Nodup) (hne : cities ≠ [])
    (p1 p2 : Individual) (h1 : p1.path.Perm cities) (h2 : p2.path.Perm cities)
    (crossoverRate mutationRate : ℚ)
    (hcr0 : 0 ≤ crossoverRate) (hcr1 : crossoverRate ≤ 1)
    (hmr0 : 0 ≤ mutationRate) (hmr1 : mutationRate ≤ 1)
    (size : ℕ) (r rs re rm ri rj : ℚ)
    (hrs0 : 0 ≤ rs) (hrs1 : rs < 1) (hre0 : 0 ≤ re) (hre1 : re < 1)
    (hri0 : 0 ≤ ri) (hri1 : ri < 1) (hrj0 : 0 ≤ rj) (hrj1 : rj < 1) :
    (∀ ind ∈ initPopulation hypot cmps cities size,
        ind.path.Perm cities ∧ ind.path.length = cities.length) ∧
    (∀ child, crossover crossoverRate p1 p2 r rs re = some child →
        child.Perm cities ∧ (child.map City.id).Nodup ∧
        child.length = cities.length ∧ ∀ c ∈ cities, c ∈ child) ∧
    (∀ path, path.Perm cities →
        (mutate mutationRate path rm ri rj).Perm cities ∧
        (mutate mutationRate path rm ri rj).length = cities.length) := by
  refine ⟨?_, ?_, ?_⟩
  · intro ind hind
    simp only [initPopulation, List.mem_map] at hind
    rcases hind with ⟨i, hi, rfl⟩
    exact ⟨List.mergeSort_perm cities (cmps i),
      (List.mergeSort_perm cities (cmps i)).length_eq⟩
  · obtain ⟨child0, hc, hperm⟩ :=
      crossover_perm cities hids p1 p2 h1 h2 crossoverRate r rs re
    intro child hchild
    rw [hc] at hchild
    obtain rfl := Option.some.inj hchild
    exact ⟨hperm, (hperm.map City.id).nodup_iff.mpr hids, hperm.length_eq,
      fun c hcmem => hperm.mem_iff.mpr hcmem⟩
  · intro path hpath
    have hp := (mutate_perm mutationRate path rm ri rj hri0 hri1 hrj0 hrj1).trans hpath
    exact ⟨hp, hp.length_eq⟩

/-- Witness for `permutation_invariant` on the one-point set with both
parents the identity tour and all draws 0. -/
theorem permutation_invariant_witness :
    (∀ ind ∈ initPopulation (fun _ _ => 0) (fun _ _ _ => true) [⟨0, 0, 0⟩] 1,
        ind.path.Perm [⟨0, 0, 0⟩] ∧ ind.path.length = ([(⟨0, 0, 0⟩ : City)]).length) ∧
    (∀ child, crossover (1/2) ⟨[⟨0, 0, 0⟩], 0, 0⟩ ⟨[⟨0, 0, 0⟩], 0, 0⟩ 0 0 0 = some child →
        child.Perm [⟨0, 0, 0⟩] ∧ (child.map City.id).Nodup ∧
        child.length = ([(⟨0, 0, 0⟩ : City)]).length ∧
        ∀ c ∈ [(⟨0, 0, 0⟩ : City)], c ∈ child) ∧
    (∀ path, path.Perm [(⟨0, 0, 0⟩ : City)] →
        (mutate (1/2) path 0 0 0).Perm [⟨0, 0, 0⟩] ∧
        (mutate (1/2) path 0 0 0).length = ([(⟨0, 0, 0⟩ : City)]).length) :=
  permutation_invariant (fun _ _ => 0) (fun _ _ _ => true) [⟨0, 0, 0⟩]
    (by simp) (List.cons_ne_nil _ _)
    ⟨[⟨0, 0, 0⟩], 0, 0⟩ ⟨[⟨0, 0, 0⟩], 0, 0⟩ (List.Perm.refl _) (List.Perm.refl _)
    (1/2) (1/2) (by norm_num) (by norm_num) (by norm_num) (by norm_num)
    1 0 0 0 0 0 0
    (by norm_num) (by norm_num) (by norm_num) (by norm_num)
    (by norm_num) (by norm_num) (by norm_num) (by norm_num)

/-- C10: for parent tours that are permutations of the same duplicate-free
non-empty point set and cut draws from `[0,1)`, the fill phase of crossover
never reads past the end of parent2's tour: the crossover always returns a
child (`none` would be the out-of-bounds `TypeError`). -/
theorem crossover_fill_in_bounds (cities : List City)
    (hids : (cities.map City.id).Nodup) (hne : cities ≠ [])
    (p1 p2 : Individual) (h1 : p1.path.Perm cities) (h2 : p2.path.Perm cities)
    (crossoverRate r rs re : ℚ)
    (hrs0 : 0 ≤ rs) (hrs1 : rs < 1) (hre0 : 0 ≤ re) (hre1 : re < 1) :
    ∃ child, crossover crossoverRate p1 p2 r rs re = some child :=
  (crossover_perm cities hids p1 p2 h1 h2 crossoverRate r rs re).imp
    fun _ h => h.1

/-- Witness for `crossover_fill_in_bounds` on the one-point set. -/
theorem crossover_fill_in_bounds_witness :
    ∃ child, crossover (1/2) ⟨[⟨0, 0, 0⟩], 0, 0⟩ ⟨[⟨0, 0, 0⟩], 0, 0⟩ 0 0 0 = some child :=
  crossover_fill_in_bounds [⟨0, 0, 0⟩] (by simp) (List.cons_ne_nil _ _)
    ⟨[⟨0, 0, 0⟩], 0, 0⟩ ⟨[⟨0, 0, 0⟩], 0, 0⟩ (List.Perm.refl _) (List.Perm.refl _)
    (1/2) 0 0 0 (by norm_num) (by norm_num) (by norm_num) (by norm_num)

lemma head_mergeSort_spec {α : Type} (le : α → α → Bool)
    (htrans : ∀ a b c, le a b → le b c → le a c)
    (htotal : ∀ a b, le a b || le b a) (l : List α) (m : α)
    (h : (l.mergeSort le).head? = some m) : m ∈ l ∧ ∀ x ∈ l, le m x := by
  have hperm := List.mergeSort_perm l le
  have hsort := List.sorted_mergeSort htrans htotal l
  cases hms : l.mergeSort le with
  | nil => rw [hms] at h; simp at h
  | cons a t =>
    rw [hms] at h hperm hsort
    have ham : a = m := by simpa using h
    refine ⟨ham ▸ hperm.mem_iff.mp (List.mem_cons_self _ _), ?_⟩
    intro x hx
    rcases List.mem_cons.mp (hperm.mem_iff.mpr hx) with hxa | hxt
    · rw [← ham, hxa]
      simpa using htotal a a
    · rw [← ham]
      exact (List.pairwise_cons.mp hsort).1 x hxt

lemma mergeSort_head?_isSome {α : Type} (le : α → α → Bool) (l : List α)
    (hne : l ≠ []) : ∃ m, (l.mergeSort le).head? = some m := by
  cases hms : l.mergeSort le with
  | nil =>
    exfalso
    have hperm := List.mergeSort_perm l le
    rw [hms] at hperm
    exact hne (hperm.symm.eq_nil)
  | cons a t => exact ⟨a, rfl⟩

lemma mapM_eq_some_map {α β : Type} (f : α → Option β) (g : α → β) :
    ∀ l : List α, (∀ a ∈ l, f a = some (g a)) → l.mapM f = some (l.map g) := by
  intro l
  induction l with
  | nil => intro h; rfl
  | cons a t ih =>
    intro h
    rw [List.mapM_cons, h a (List.mem_cons_self a t),
      ih fun b hb => h b (List.mem_cons_of_mem a hb)]
    rfl

lemma select_mem_of_ne_nil (pop : List Individual) (rand : ℚ) (hne : pop ≠ []) :
    ∃ ind, select pop rand = some ind ∧ ind ∈ pop := by
  have hsel : select pop rand =
      match selectLoop (rand * pop.foldl (fun sum ind => sum + ind.fitness) 0) 0 pop with
      | some ind => some ind
      | none => pop.head? := rfl
  rw [hsel]
  cases hloop : selectLoop (rand * pop.foldl (fun sum ind => sum + ind.fitness) 0) 0 pop with
  | some ind => exact ⟨ind, rfl, selectLoop_mem pop _ _ ind hloop⟩
  | none =>
    rcases List.exists_cons_of_ne_nil hne with ⟨a, l, rfl⟩
    exact ⟨a, rfl, List.mem_cons_self a l⟩

lemma mkChild_spec (hypot : ℚ → ℚ → ℚ) (cfg : GAConfig) (pop : List Individual)
    (rnd : ChildRnd) (cities : List City)
    (hids : (cities.map City.id).Nodup)
    (hpop : ∀ ind ∈ pop, ind.path.Perm cities) (hpne : pop ≠ []) :
    ∃ ind, mkChild hypot cfg pop rnd = some ind ∧
      ∃ p1 p2 cpath,
        select pop rnd.sel1 = some p1 ∧ p1 ∈ pop ∧
        select pop rnd.sel2 = some p2 ∧ p2 ∈ pop ∧
        crossover cfg.crossoverRate p1 p2 rnd.cx rnd.cxStart rnd.cxEnd = some cpath ∧
        ind.path = mutate cfg.mutationRate cpath rnd.mt rnd.mtI rnd.mtJ ∧
        ind.length = calculatePathLength hypot ind.path ∧
        ind.fitness = calculateFitness ind := by
  obtain ⟨p1, hp1, hm1⟩ := select_mem_of_ne_nil pop rnd.sel1 hpne
  obtain ⟨p2, hp2, hm2⟩ := select_mem_of_ne_nil pop rnd.sel2 hpne
  obtain ⟨cpath, hcp, hcperm⟩ := crossover_perm cities hids p1 p2
    (hpop p1 hm1) (hpop p2 hm2) cfg.crossoverRate rnd.cx rnd.cxStart rnd.cxEnd
  refine ⟨⟨mutate cfg.mutationRate cpath rnd.mt rnd.mtI rnd.mtJ,
    calculateFitness ⟨mutate cfg.mutationRate cpath rnd.mt rnd.mtI rnd.mtJ, 0,
      calculatePathLength hypot (mutate cfg.mutationRate cpath rnd.mt rnd.mtI rnd.mtJ)⟩,
    calculatePathLength hypot (mutate cfg.mutationRate cpath rnd.mt rnd.mtI rnd.mtJ)⟩,
    ?_, p1, p2, cpath, hp1, hm1, hp2, hm2, hcp, rfl, rfl, rfl⟩
  rw [mkChild, hp1]
  simp only [Option.bind_eq_bind, Option.some_bind]
  rw [hp2]
  simp only [Option.some_bind]
  rw [hcp]
  simp only [Option.some_bind]

/-- C3: below the ceiling, one generation step over a valid population of a
duplicate-free non-empty point set succeeds and produces exactly
`populationSize` individuals; the first is a highest-fitness member of the
previous population (the elite), and each of the others is built by
select–crossover–mutate from the previous population with its length and
fitness recomputed from its tour. -/
theorem generation_step_structure (hypot : ℚ → ℚ → ℚ) (cfg : GAConfig) (s : RunState)
    (rnd : ℕ → ChildRnd) (cities : List City)
    (hgen : s.currentGen < 1000) (hN : 1 ≤ cfg.populationSize)
    (hpne : s.population ≠ []) (hids : (cities.map City.id).Nodup)
    (hpop : ∀ ind ∈ s.population, ind.path.Perm cities) :
    ∃ s', gaIteration hypot cfg s rnd = some s' ∧
      s'.population.length = cfg.populationSize ∧
      (∃ elite, s'.population.head? = some elite ∧ elite ∈ s.population ∧
        ∀ x ∈ s.population, x.fitness ≤ elite.fitness) ∧
      (∀ k, k < cfg.populationSize - 1 →
        ∃ p1 p2 cpath ind,
          select s.population (rnd k).sel1 = some p1 ∧ p1 ∈ s.population ∧
          select s.population (rnd k).sel2 = some p2 ∧ p2 ∈ s.population ∧
          crossover cfg.crossoverRate p1 p2 (rnd k).cx (rnd k).cxStart
            (rnd k).cxEnd = some cpath ∧
          ind.path = mutate cfg.mutationRate cpath (rnd k).mt (rnd k).mtI (rnd k).mtJ ∧
          ind.length = calculatePathLength hypot ind.path ∧
          ind.fitness = calculateFitness ind ∧
          s'.population[k + 1]? = some ind) := by
  have htrans : ∀ a b c : Individual,
      (fun a b => decide (b.fitness ≤ a.fitness)) a b →
      (fun a b => decide (b.fitness ≤ a.fitness)) b c →
      (fun a b => decide (b.fitness ≤ a.fitness)) a c := by
    intro a b c hab hbc
    simp only [decide_eq_true_eq] at *
    exact le_trans hbc hab
  have htotal : ∀ a b : Individual,
      (fun a b => decide (b.fitness ≤ a.fitness)) a b ||
      (fun a b => decide (b.fitness ≤ a.fitness)) b a := by
    intro a b
    simp only [Bool.or_eq_true, decide_eq_true_eq]
    exact le_total _ _
  obtain ⟨elite, helite⟩ :=
    mergeSort_head?_isSome (fun a b : Individual => decide (b.fitness ≤ a.fitness)) s.population hpne
  obtain ⟨hemem, hemax⟩ := head_mergeSort_spec _ htrans htotal s.population elite helite
  have hmk : ∀ k : ℕ, ∃ ind, mkChild hypot cfg s.population (rnd k) = some ind ∧
      ∃ p1 p2 cpath,
        select s.population (rnd k).sel1 = some p1 ∧ p1 ∈ s.population ∧
        select s.population (rnd k).sel2 = some p2 ∧ p2 ∈ s.population ∧
        crossover cfg.crossoverRate p1 p2 (rnd k).cx (rnd k).cxStart
          (rnd k).cxEnd = some cpath ∧
        ind.path = mutate cfg.mutationRate cpath (rnd k).mt (rnd k).mtI (rnd k).mtJ ∧
        ind.length = calculatePathLength hypot ind.path ∧
        ind.fitness = calculateFitness ind :=
    fun k => mkChild_spec hypot cfg s.population (rnd k) cities hids hpop hpne
  have hmapM : (List.range (cfg.populationSize - 1)).mapM
      (fun k => mkChild hypot cfg s.population (rnd k)) =
      some ((List.range (cfg.populationSize - 1)).map fun k => (hmk k).choose) :=
    mapM_eq_some_map _ _ _ fun a _ => (hmk a).choose_spec.1
  obtain ⟨currentBest, hcb⟩ := mergeSort_head?_isSome
    (fun a b : Individual => decide (a.length ≤ b.length))
    (elite :: (List.range (cfg.populationSize - 1)).map fun k => (hmk k).choose)
    (List.cons_ne_nil _ _)
  refine ⟨{ s with
      population := elite :: (List.range (cfg.populationSize - 1)).map
        fun k => (hmk k).choose
      bestIndividual := if currentBest.length < s.bestIndividual.length
        then currentBest else s.bestIndividual
      currentGen := s.currentGen + 1 }, ?_, ?_, ?_, ?_⟩
  · rw [gaIteration, if_neg (by omega), helite]
    simp only [Option.bind_eq_bind, Option.some_bind]
    rw [hmapM]
    simp only [Option.some_bind]
    rw [hcb]
    simp only [Option.some_bind]
  · simp only [List.length_cons, List.length_map, List.length_range]
    omega
  · refine ⟨elite, rfl, hemem, ?_⟩
    intro x hx
    have := hemax x hx
    simpa using this
  · intro k hk
    obtain ⟨p1, p2, cpath, hp1, hm1, hp2, hm2, hcp, hpath, hlen, hfit⟩ :=
      (hmk k).choose_spec.2
    refine ⟨p1, p2, cpath, (hmk k).choose, hp1, hm1, hp2, hm2, hcp, hpath, hlen, hfit, ?_⟩
    simp only [List.getElem?_cons_succ, List.getElem?_map]
    rw [List.getElem?_range hk]
    rfl

/-- Witness for `generation_step_structure`: a single-city world with a
one-individual population and population size 2. -/
theorem generation_step_structure_witness :
    ∃ s', gaIteration (fun _ _ => 0) ⟨1, 2, 1/2, 1/2, 20⟩
        ⟨[⟨0, 0, 0⟩], [⟨[⟨0, 0, 0⟩], 0, 0⟩], ⟨[], 0, 0⟩, 0, true⟩
        (fun _ => ⟨0, 0, 0, 0, 0, 0, 0, 0⟩) = some s' ∧
      s'.population.length = (⟨1, 2, 1/2, 1/2, 20⟩ : GAConfig).populationSize ∧
      (∃ elite, s'.population.head? = some elite ∧
        elite ∈ [(⟨[⟨0, 0, 0⟩], 0, 0⟩ : Individual)] ∧
        ∀ x ∈ [(⟨[⟨0, 0, 0⟩], 0, 0⟩ : Individual)], x.fitness ≤ elite.fitness) ∧
      (∀ k, k < (⟨1, 2, 1/2, 1/2, 20⟩ : GAConfig).populationSize - 1 →
        ∃ p1 p2 cpath ind,
          select [(⟨[⟨0, 0, 0⟩], 0, 0⟩ : Individual)]
            ((fun _ => (⟨0, 0, 0, 0, 0, 0, 0, 0⟩ : ChildRnd)) k).sel1 = some p1 ∧
          p1 ∈ [(⟨[⟨0, 0, 0⟩], 0, 0⟩ : Individual)] ∧
          select [(⟨[⟨0, 0, 0⟩], 0, 0⟩ : Individual)]
            ((fun _ => (⟨0, 0, 0, 0, 0, 0, 0, 0⟩ : ChildRnd)) k).sel2 = some p2 ∧
          p2 ∈ [(⟨[⟨0, 0, 0⟩], 0, 0⟩ : Individual)] ∧
          crossover (⟨1, 2, 1/2, 1/2, 20⟩ : GAConfig).crossoverRate p1 p2
            ((fun _ => (⟨0, 0, 0, 0, 0, 0, 0, 0⟩ : ChildRnd)) k).cx
            ((fun _ => (⟨0, 0, 0, 0, 0, 0, 0, 0⟩ : ChildRnd)) k).cxStart
            ((fun _ => (⟨0, 0, 0, 0, 0, 0, 0, 0⟩ : ChildRnd)) k).cxEnd = some cpath ∧
          ind.path = mutate (⟨1, 2, 1/2, 1/2, 20⟩ : GAConfig).mutationRate cpath
            ((fun _ => (⟨0, 0, 0, 0, 0, 0, 0, 0⟩ : ChildRnd)) k).mt
            ((fun _ => (⟨0, 0, 0, 0, 0, 0, 0, 0⟩ : ChildRnd)) k).mtI
            ((fun _ => (⟨0, 0, 0, 0, 0, 0, 0, 0⟩ : ChildRnd)) k).mtJ ∧
          ind.length = calculatePathLength (fun _ _ => 0) ind.path ∧
          ind.fitness = calculateFitness ind ∧
          s'.population[k + 1]? = some ind) :=
  generation_step_structure (fun _ _ => 0) ⟨1, 2, 1/2, 1/2, 20⟩
    ⟨[⟨0, 0, 0⟩], [⟨[⟨0, 0, 0⟩], 0, 0⟩], ⟨[], 0, 0⟩, 0, true⟩
    (fun _ => ⟨0, 0, 0, 0, 0, 0, 0, 0⟩) [⟨0, 0, 0⟩]
    (by norm_num) (by norm_num) (List.cons_ne_nil _ _) (by simp)
    (by
      intro ind hind
      rw [List.mem_singleton.mp hind])

/-- C9: after `reset` with a configured `populationSize ≥ 1`, the generation
counter is 0, the population has exactly `populationSize` individuals, every
individual's tour has exactly `cityCount` cities, and the initial best-ever
is a minimal-length member of the initial population. -/
theorem reset_spec (hypot : ℚ → ℚ → ℚ) (cfg : GAConfig) (rx ry : ℕ → ℚ)
    (cmps : ℕ → City → City → Bool) (hN : 1 ≤ cfg.populationSize) :
    ∃ st, reset hypot cfg rx ry cmps = some st ∧
      st.currentGen = 0 ∧
      st.population.length = cfg.populationSize ∧
      (∀ ind ∈ st.population, ind.path.length = cfg.cityCount) ∧
      st.bestIndividual ∈ st.population ∧
      ∀ ind ∈ st.population, st.bestIndividual.length ≤ ind.length := by
  have hplen : (initPopulation hypot cmps (generateCities rx ry cfg.cityCount)
      cfg.populationSize).length = cfg.populationSize := by
    simp [initPopulation]
  have hpne : initPopulation hypot cmps (generateCities rx ry cfg.cityCount)
      cfg.populationSize ≠ [] := by
    intro h
    rw [h] at hplen
    simp only [List.length_nil] at hplen
    omega
  have htrans : ∀ a b c : Individual,
      (fun a b : Individual => decide (a.length ≤ b.length)) a b →
      (fun a b : Individual => decide (a.length ≤ b.length)) b c →
      (fun a b : Individual => decide (a.length ≤ b.length)) a c := by
    intro a b c hab hbc
    simp only [decide_eq_true_eq] at *
    exact le_trans hab hbc
  have htotal : ∀ a b : Individual,
      (fun a b : Individual => decide (a.length ≤ b.length)) a b ||
      (fun a b : Individual => decide (a.length ≤ b.length)) b a := by
    intro a b
    simp only [Bool.or_eq_true, decide_eq_true_eq]
    exact le_total _ _
  obtain ⟨best, hbest⟩ := mergeSort_head?_isSome
    (fun a b : Individual => decide (a.length ≤ b.length))
    (initPopulation hypot cmps (generateCities rx ry cfg.cityCount) cfg.populationSize)
    hpne
  obtain ⟨hbmem, hbmin⟩ := head_mergeSort_spec _ htrans htotal _ best hbest
  refine ⟨⟨generateCities rx ry cfg.cityCount,
    initPopulation hypot cmps (generateCities rx ry cfg.cityCount) cfg.populationSize,
    best, 0, false⟩, ?_, rfl, hplen, ?_, hbmem, ?_⟩
  · rw [reset, hbest]
    simp only [Option.bind_eq_bind, Option.some_bind]
  · intro ind hind
    simp only [initPopulation, List.mem_map] at hind
    rcases hind with ⟨i, hi, rfl⟩
    show ((generateCities rx ry cfg.cityCount).mergeSort (cmps i)).length = cfg.cityCount
    rw [List.length_mergeSort]
    simp [generateCities]
  · intro ind hind
    have := hbmin ind hind
    simpa using this

/-- Witness for `reset_spec` with two cities and population size 1. -/
theorem reset_spec_witness :
    ∃ st, reset (fun _ _ => 0) ⟨2, 1, 1/2, 1/2, 20⟩ (fun _ => 0) (fun _ => 0)
        (fun _ _ _ => true) = some st ∧
      st.currentGen = 0 ∧
      st.population.length = (⟨2, 1, 1/2, 1/2, 20⟩ : GAConfig).populationSize ∧
      (∀ ind ∈ st.population, ind.path.length = (⟨2, 1, 1/2, 1/2, 20⟩ : GAConfig).cityCount) ∧
      st.bestIndividual ∈ st.population ∧
      ∀ ind ∈ st.population, st.bestIndividual.length ≤ ind.length :=
  reset_spec (fun _ _ => 0) ⟨2, 1, 1/2, 1/2, 20⟩ (fun _ => 0) (fun _ => 0)
    (fun _ _ _ => true) (by norm_num)
